import Mathlib

/-!
Verification development for the turbo-delete tree-deletion engine
(src/main.rs).  The Rust program is shallowly embedded: filesystem
primitives are modelled by an oracle structure `World` answering each
query the program makes, fallible operations return `Except`, panics
and process exits are a `Halt` value, and the observable actions of a
run (scanning, attribute clearing, removal attempts, progress ticks)
are recorded in an event log.
-/

/-- Paths are modelled as strings, as in the Rust `PathBuf` handling. -/
abbrev FsPath := String

/-- An I/O error detail (the payload of a Rust `std::io::Error`). -/
abbrev IOErr := String

/-- A discovered filesystem node, as yielded by the `jwalk` traversal:
its path together with its depth relative to the walk root. -/
structure Entry where
  path : FsPath
  depth : Nat
deriving DecidableEq, Repr

/-- Abnormal termination: a Rust panic (from `unwrap` or an
out-of-bounds slice) or an explicit `std::process::exit`. -/
inductive Halt where
  | panic (msg : String)
  | exitCode (n : Nat)
deriving DecidableEq, Repr

/-- Per-target result of the engine, per the spec taxonomy plus the
scan-error branch the code contains. -/
inductive Outcome where
  | Success
  | PartialFailure (e : IOErr)
  | NotFound
  | ScanFailure
deriving DecidableEq, Repr

/-- Observable actions of a run, used to state which filesystem
operations a code path performs. -/
inductive Event where
  | scan (p : FsPath)
  | setPerm (p : FsPath)
  | removeAttempt (p : FsPath)
  | repairStart (p : FsPath)
  | tick
deriving DecidableEq, Repr

/-- Oracle answering every filesystem query of one per-target run of
`main`.  `pathExists` is the initial existence check; `pathExistsAfter`
is the re-check after the fan-out barrier (the state may have changed).
`walk` is the `jwalk` result stream of the scan pass and `walkRepair`
the stream of the repair pass. -/
structure World where
  pathExists : FsPath → Bool
  isFile : FsPath → Bool
  isDir : FsPath → Bool
  metadata : FsPath → Except IOErr Unit
  setPermissions : FsPath → Except IOErr Unit
  removeDirAll : FsPath → Except IOErr Unit
  removeFile : FsPath → Except IOErr Unit
  walk : FsPath → List (Except IOErr Entry)
  walkRepair : FsPath → List (Except IOErr Entry)
  entryExists : FsPath → Bool
  pathExistsAfter : FsPath → Bool

/-- `set_writable`: reads metadata and writes permissions back, calling
`.unwrap()` on both results — a failure of either is a panic, not an
error return. -/
def set_writable (w : World) (p : FsPath) : Except Halt (List Event) :=
  match w.metadata p with
  | .error e => .error (.panic e)
  | .ok _ =>
    match w.setPermissions p with
    | .error e => .error (.panic e)
    | .ok _ => .ok [.setPerm p]

/-- The filter of `set_folder_writable`:
`v.as_ref().map(|e| e.path().exists()).unwrap_or(false)` keeps an `Ok`
entry whose path exists and drops every `Err` item. -/
def keptRepairEntries (w : World) (p : FsPath) : List (Except IOErr Entry) :=
  (w.walkRepair p).filter fun v =>
    match v with
    | .ok e => w.entryExists e.path
    | .error _ => false

/-- The map of `set_folder_writable`:
`v.unwrap_or_else(|err| { eprintln; std::process::exit(1) })` — the
first `Err` item terminates the process with exit code 1. -/
def unwrapAll : List (Except IOErr Entry) → Except Halt (List Entry)
  | [] => .ok []
  | .error _ :: _ => .error (.exitCode 1)
  | .ok e :: rest => (unwrapAll rest).map fun es => e :: es

/-- The `Ok` entries of the repair walk whose paths exist — what the
filter of `set_folder_writable` actually lets through. -/
def keptOk (w : World) (p : FsPath) : List Entry :=
  (w.walkRepair p).filterMap fun v =>
    match v with
    | .ok e => if w.entryExists e.path then some e else none
    | .error _ => none

/-- The parallel `set_writable` over all collected entries
(`entries.par_iter().for_each(set_writable)`), modelled sequentially; a
panic of any call aborts. -/
def setAllWritable (w : World) : List Entry → Except Halt (List Event)
  | [] => .ok []
  | e :: rest => do
      let ev ← set_writable w e.path
      let evs ← setAllWritable w rest
      .ok (ev ++ evs)

/-- `set_folder_writable`: walk the tree (filter, then unwrap-or-exit),
then clear the read-only attribute of every collected entry. -/
def set_folder_writable (w : World) (p : FsPath) : Except Halt (List Event) := do
  let es ← unwrapAll (keptRepairEntries w p)
  let evs ← setAllWritable w es
  .ok (.repairStart p :: evs)

/-- `delete_entry`: `remove_dir_all` for a directory, `remove_file`
otherwise. -/
def delete_entry (w : World) (p : FsPath) : Except IOErr Unit :=
  if w.isDir p then w.removeDirAll p else w.removeFile p

/-- Rust `Result::ok()`. -/
def resultOk : Except IOErr Entry → Option Entry
  | .ok e => some e
  | .error _ => none

/-- `collect::<Option<Vec<_>>>()`: `none` as soon as any item is
`none`, otherwise `some` of the unwrapped items. -/
def collectOption : List (Option Entry) → Option (List Entry)
  | [] => some []
  | none :: _ => none
  | some e :: rest => (collectOption rest).map fun es => e :: es

/-- The scan pipeline of the directory branch:
`.map(|v| v.ok()).filter(Option::is_some).collect::<Option<Vec<_>>>()`. -/
def scanEntries (results : List (Except IOErr Entry)) : Option (List Entry) :=
  collectOption (((results.map resultOk).filter Option.isSome))

/-- One `BTreeMap<u64, Vec<PathBuf>>` insertion:
`tree.entry(depth).or_insert_with(Vec::new).push(path)` on an
association list kept sorted by ascending depth. -/
def insertEntry (d : Nat) (p : FsPath) : List (Nat × List FsPath) → List (Nat × List FsPath)
  | [] => [(d, [p])]
  | (k, ps) :: rest =>
    if d < k then (d, [p]) :: (k, ps) :: rest
    else if d = k then (k, ps ++ [p]) :: rest
    else (k, ps) :: insertEntry d p rest

/-- The bucketization loop: insert every scanned entry into the bucket
keyed by its depth. -/
def bucketize (entries : List Entry) : List (Nat × List FsPath) :=
  entries.foldl (fun t e => insertEntry e.depth e.path t) []

/-- All (depth, path) pairs of a plan, bucket by bucket. -/
def flattenPlan : List (Nat × List FsPath) → List (Nat × FsPath)
  | [] => []
  | b :: rest => (b.2.map fun p => (b.1, p)) ++ flattenPlan rest

/-- Events of one bucket task: per entry, one swallowed removal attempt
(`let _ = delete_entry(entry)`) and one progress tick (`bar.inc(1)`). -/
def bucketEvents : List FsPath → List Event
  | [] => []
  | p :: rest => Event.removeAttempt p :: Event.tick :: bucketEvents rest

/-- Events of the whole fan-out over the submitted buckets. -/
def fanoutEvents : List (Nat × List FsPath) → List Event
  | [] => []
  | b :: rest => bucketEvents b.2 ++ fanoutEvents rest

/-- Number of progress ticks in an event log. -/
def countTicks (evs : List Event) : Nat :=
  (evs.filter fun e =>
    match e with
    | .tick => true
    | _ => false).length

/-- The depth keys in bucket-submission order:
`for (_, entries) in tree.iter().rev()` — descending. -/
def submissionDepths (es : List Entry) : List Nat :=
  ((bucketize es).reverse).map Prod.fst

/-- The post-barrier phase of the directory branch: if the root still
exists, repair permissions and retry one recursive removal; otherwise
succeed directly. -/
def dirFinish (w : World) (p : FsPath) : Except Halt (Outcome × List Event) :=
  if w.pathExistsAfter p then do
    let revs ← set_folder_writable w p
    match delete_entry w p with
    | .error e => .ok (.PartialFailure e, revs ++ [.removeAttempt p])
    | .ok _ => .ok (.Success, revs ++ [.removeAttempt p])
  else
    .ok (.Success, [])

/-- The single-file branch of `main`: clear the read-only attribute,
then remove the file; an I/O error of the removal is the per-target
failure. -/
def fileBranch (w : World) (p : FsPath) : Except Halt (Outcome × List Event) := do
  let ev1 ← set_writable w p
  match delete_entry w p with
  | .error e => .ok (.PartialFailure e, ev1 ++ [.removeAttempt p])
  | .ok _ => .ok (.Success, ev1 ++ [.removeAttempt p])

/-- The directory branch after a successful scan: bucketize, fan the
bucket tasks out (individual removal errors swallowed), join, then run
the post-barrier phase. -/
def dirBranch (w : World) (p : FsPath) (entries : List Entry) :
    Except Halt (Outcome × List Event) := do
  let fanLog := fanoutEvents ((bucketize entries).reverse)
  let fin ← dirFinish w p
  .ok (fin.1, .scan p :: fanLog ++ fin.2)

/-- One per-target run of `main`'s loop body, after quote stripping:
existence check, file branch, or directory branch
(scan → bucketize → fan-out → barrier → `dirFinish`). -/
def processPath (w : World) (p : FsPath) : Except Halt (Outcome × List Event) :=
  if !(w.pathExists p) then .ok (.NotFound, [])
  else if w.isFile p then fileBranch w p
  else
    match scanEntries (w.walk p) with
    | none => .ok (.ScanFailure, [.scan p])
    | some entries => dirBranch w p entries

/-- The double-quote character. -/
def quoteChar : Char := '"'

/-- `path_str.starts_with('"')`. -/
def startsWithQuote (s : String) : Bool :=
  match s.toList with
  | [] => false
  | c :: _ => c = quoteChar

/-- `path_str.ends_with('"')`. -/
def endsWithQuote (s : String) : Bool :=
  match s.toList.getLast? with
  | none => false
  | some c => c = quoteChar

/-- The argument preprocessing of `main`: when the argument starts and
ends with a double quote, take `path_str[1..len-1]`.  On the
one-character argument consisting of a single quote the byte range is
`1..0`, which panics. -/
def stripQuotes (s : String) : Except Halt String :=
  if startsWithQuote s && endsWithQuote s then
    if s.length < 2 then .error (.panic "slice index starts at 1 but ends at 0")
    else .ok (String.mk ((s.toList.drop 1).dropLast))
  else .ok s

/-- One full per-target iteration: quote stripping, then the run on the
resulting path. -/
def processTarget (w : World) (arg : String) : Except Halt (Outcome × List Event) := do
  let p ← stripQuotes arg
  processPath w p

/-! ### Concrete worlds used as witnesses and counterexamples -/

/-- A directory target whose repair walk hits an unreadable entry
(`Err`) followed by a readable one, with the root still present after
the fan-out. -/
def W3 : World where
  pathExists := fun _ => true
  isFile := fun _ => false
  isDir := fun _ => true
  metadata := fun _ => Except.ok ()
  setPermissions := fun _ => Except.ok ()
  removeDirAll := fun _ => Except.ok ()
  removeFile := fun _ => Except.ok ()
  walk := fun _ => [Except.ok ⟨"d", 0⟩]
  walkRepair := fun _ => [Except.error "unreadable subdirectory", Except.ok ⟨"d/a", 1⟩]
  entryExists := fun _ => true
  pathExistsAfter := fun _ => true

/-- A directory target that is fully removed by the fan-out: the root
no longer exists at the post-barrier check. -/
def W0 : World where
  pathExists := fun _ => true
  isFile := fun _ => false
  isDir := fun _ => true
  metadata := fun _ => Except.ok ()
  setPermissions := fun _ => Except.ok ()
  removeDirAll := fun _ => Except.ok ()
  removeFile := fun _ => Except.ok ()
  walk := fun _ => [Except.ok ⟨"d", 0⟩, Except.ok ⟨"d/a", 1⟩]
  walkRepair := fun _ => []
  entryExists := fun _ => true
  pathExistsAfter := fun _ => false

/-- An existing regular file whose metadata and permission writes
succeed. -/
def Wf : World where
  pathExists := fun _ => true
  isFile := fun _ => true
  isDir := fun _ => false
  metadata := fun _ => Except.ok ()
  setPermissions := fun _ => Except.ok ()
  removeDirAll := fun _ => Except.ok ()
  removeFile := fun _ => Except.ok ()
  walk := fun _ => []
  walkRepair := fun _ => []
  entryExists := fun _ => true
  pathExistsAfter := fun _ => false

/-- A world in which no path exists. -/
def Wmissing : World where
  pathExists := fun _ => false
  isFile := fun _ => false
  isDir := fun _ => false
  metadata := fun _ => Except.ok ()
  setPermissions := fun _ => Except.ok ()
  removeDirAll := fun _ => Except.ok ()
  removeFile := fun _ => Except.ok ()
  walk := fun _ => []
  walkRepair := fun _ => []
  entryExists := fun _ => false
  pathExistsAfter := fun _ => false

/-- An existing regular file whose metadata read fails (`EACCES`). -/
def Wpanic : World where
  pathExists := fun _ => true
  isFile := fun _ => true
  isDir := fun _ => false
  metadata := fun _ => Except.error "EACCES"
  setPermissions := fun _ => Except.ok ()
  removeDirAll := fun _ => Except.ok ()
  removeFile := fun _ => Except.ok ()
  walk := fun _ => [Except.ok ⟨"d", 0⟩]
  walkRepair := fun _ => [Except.ok ⟨"d/a", 1⟩]
  entryExists := fun _ => true
  pathExistsAfter := fun _ => true

/-- A directory target whose repair pass hits an entry with unreadable
metadata. -/
def WpanicDir : World :=
  { Wpanic with isFile := fun _ => false, isDir := fun _ => true }

/-- An existing regular file whose metadata read succeeds but whose
permissions write-back fails. -/
def WpanicPerms : World :=
  { Wpanic with metadata := fun _ => Except.ok (),
                setPermissions := fun _ => Except.error "read-only filesystem" }

/-- The entries scanned in the world `W0`. -/
def dEntries : List Entry := [⟨"d", 0⟩, ⟨"d/a", 1⟩]

/-! ### Helper lemmas about the scan pipeline -/

theorem collectOption_isSome (l : List (Option Entry))
    (h : ∀ o ∈ l, o.isSome = true) : (collectOption l).isSome = true := by
  induction l with
  | nil => rfl
  | cons o rest ih =>
    cases o with
    | none => exact absurd (h none (List.mem_cons_self _ _)) (by simp)
    | some e =>
      have hrest : (collectOption rest).isSome = true :=
        ih fun o ho => h o (List.mem_cons_of_mem _ ho)
      obtain ⟨es, hes⟩ := Option.isSome_iff_exists.mp hrest
      simp [collectOption, hes]

theorem scanEntries_isSome (rs : List (Except IOErr Entry)) :
    (scanEntries rs).isSome = true := by
  apply collectOption_isSome
  intro o ho
  exact (List.mem_filter.mp ho).2

theorem fileBranch_outcome (w : World) (p : FsPath) (out : Outcome) (evs : List Event)
    (h : fileBranch w p = Except.ok (out, evs)) :
    out = Outcome.Success ∨ ∃ e, out = Outcome.PartialFailure e := by
  unfold fileBranch at h
  cases hw : set_writable w p with
  | error e => simp [hw, Bind.bind, Except.bind] at h
  | ok ev1 =>
    cases hd : delete_entry w p with
    | error e =>
      simp [hw, hd, Bind.bind, Except.bind] at h
      exact Or.inr ⟨e, h.1.symm⟩
    | ok u =>
      simp [hw, hd, Bind.bind, Except.bind] at h
      exact Or.inl h.1.symm

theorem dirFinish_outcome (w : World) (p : FsPath) (out : Outcome) (evs : List Event)
    (h : dirFinish w p = Except.ok (out, evs)) :
    out = Outcome.Success ∨ ∃ e, out = Outcome.PartialFailure e := by
  unfold dirFinish at h
  by_cases hex : w.pathExistsAfter p
  · rw [if_pos hex] at h
    cases hr : set_folder_writable w p with
    | error e => simp [hr, Bind.bind, Except.bind] at h
    | ok revs =>
      cases hd : delete_entry w p with
      | error e =>
        simp [hr, hd, Bind.bind, Except.bind] at h
        exact Or.inr ⟨e, h.1.symm⟩
      | ok u =>
        simp [hr, hd, Bind.bind, Except.bind] at h
        exact Or.inl h.1.symm
  · rw [if_neg hex] at h
    cases h
    exact Or.inl rfl

theorem dirBranch_outcome (w : World) (p : FsPath) (entries : List Entry)
    (out : Outcome) (evs : List Event)
    (h : dirBranch w p entries = Except.ok (out, evs)) :
    out = Outcome.Success ∨ ∃ e, out = Outcome.PartialFailure e := by
  unfold dirBranch at h
  cases hf : dirFinish w p with
  | error e => simp [hf, Bind.bind, Except.bind] at h
  | ok fin =>
    simp [hf, Bind.bind, Except.bind] at h
    obtain ⟨h1, h2⟩ := h
    subst h1
    exact dirFinish_outcome w p fin.1 fin.2 (by rw [hf])

/-- C2: the scan pipeline maps each walk item through `Result::ok` and
filters the `None`s away before collecting into `Option<Vec<_>>`, so
the collect can never produce `None`: a traversal error never surfaces
as a failure for the target, the "Failed to read directory" branch is
unreachable, and a deletion plan is built from the readable entries.
In particular, for the walk output `[Err "permission denied"]` the scan
yields the empty entry list, and no run of `processPath` ever returns
the `ScanFailure` outcome. -/
theorem scan_never_fails :
    (∀ rs : List (Except IOErr Entry), (scanEntries rs).isSome = true)
    ∧ scanEntries [Except.error "permission denied"] = some []
    ∧ ∀ (w : World) (p : FsPath) (evs : List Event),
        processPath w p ≠ Except.ok (Outcome.ScanFailure, evs) := by
  refine ⟨scanEntries_isSome, rfl, ?_⟩
  intro w p evs h
  unfold processPath at h
  split at h
  · simp at h
  · split at h
    · rcases fileBranch_outcome w p _ _ h with h1 | ⟨e, h1⟩ <;> simp at h1
    · split at h
      · rename_i heq
        have hs := scanEntries_isSome (w.walk p)
        rw [heq] at hs
        simp at hs
      · rcases dirBranch_outcome w p _ _ _ h with h1 | ⟨e, h1⟩ <;> simp at h1

/-! ### Bucketization lemmas -/

theorem flattenPlan_insertEntry (d : Nat) (p : FsPath) (t : List (Nat × List FsPath)) :
    (flattenPlan (insertEntry d p t)).Perm ((d, p) :: flattenPlan t) := by
  induction t with
  | nil => simp [insertEntry, flattenPlan]
  | cons b rest ih =>
    obtain ⟨k, ps⟩ := b
    by_cases h1 : d < k
    · simp [insertEntry, h1, flattenPlan]
    · by_cases h2 : d = k
      · subst h2
        simp only [insertEntry, if_neg h1, if_pos rfl, flattenPlan, List.map_append,
          List.map_cons, List.map_nil, List.append_assoc, List.singleton_append]
        exact List.perm_middle
      · simp only [insertEntry, if_neg h1, if_neg h2, flattenPlan]
        exact (List.Perm.append_left _ ih).trans List.perm_middle

theorem flattenPlan_foldl (es : List Entry) :
    ∀ t, (flattenPlan (es.foldl (fun t e => insertEntry e.depth e.path t) t)).Perm
      ((es.map fun e => (e.depth, e.path)) ++ flattenPlan t) := by
  induction es with
  | nil => intro t; simp
  | cons e rest ih =>
    intro t
    simp only [List.foldl_cons, List.map_cons, List.cons_append]
    have h1 := ih (insertEntry e.depth e.path t)
    have h2 := flattenPlan_insertEntry e.depth e.path t
    exact h1.trans ((List.Perm.append_left _ h2).trans List.perm_middle)

/-- C5: bucketization inserts each scanned entry into the bucket keyed
by its own depth, and the (depth, path) pairs of all buckets together
are a permutation of the scanned entry sequence: the union of the
buckets is the full entry set, with no entry lost and none
duplicated. -/
theorem bucketize_no_loss_no_dup (es : List Entry) :
    (flattenPlan (bucketize es)).Perm (es.map fun e => (e.depth, e.path)) := by
  have h := flattenPlan_foldl es []
  unfold bucketize
  simpa [flattenPlan] using h

theorem insertEntry_lt (d k : Nat) (p : FsPath) (ps : List FsPath)
    (rest : List (Nat × List FsPath)) (h : d < k) :
    insertEntry d p ((k, ps) :: rest) = (d, [p]) :: (k, ps) :: rest := by
  simp [insertEntry, h]

theorem insertEntry_same (d : Nat) (p : FsPath) (ps : List FsPath)
    (rest : List (Nat × List FsPath)) :
    insertEntry d p ((d, ps) :: rest) = (d, ps ++ [p]) :: rest := by
  simp [insertEntry]

theorem insertEntry_gt (d k : Nat) (p : FsPath) (ps : List FsPath)
    (rest : List (Nat × List FsPath)) (h : k < d) :
    insertEntry d p ((k, ps) :: rest) = (k, ps) :: insertEntry d p rest := by
  have h1 : ¬ d < k := by omega
  have h2 : ¬ d = k := by omega
  simp [insertEntry, h1, h2]

theorem insertEntry_keys_mem (d : Nat) (p : FsPath) :
    ∀ (t : List (Nat × List FsPath)) (k : Nat),
      k ∈ (insertEntry d p t).map Prod.fst → k = d ∨ k ∈ t.map Prod.fst := by
  intro t
  induction t with
  | nil =>
    intro k hk
    simp [insertEntry] at hk
    exact Or.inl hk
  | cons b rest ih =>
    obtain ⟨k0, ps⟩ := b
    intro k hk
    rcases Nat.lt_trichotomy d k0 with h1 | h1 | h1
    · rw [insertEntry_lt d k0 p ps rest h1, List.map_cons] at hk
      rcases List.mem_cons.mp hk with h | h
      · exact Or.inl h
      · exact Or.inr h
    · subst h1
      rw [insertEntry_same d p ps rest, List.map_cons] at hk
      rcases List.mem_cons.mp hk with h | h
      · exact Or.inl h
      · exact Or.inr (by rw [List.map_cons]; exact List.mem_cons.mpr (Or.inr h))
    · rw [insertEntry_gt d k0 p ps rest h1, List.map_cons] at hk
      rcases List.mem_cons.mp hk with h | h
      · exact Or.inr (by rw [List.map_cons]; exact List.mem_cons.mpr (Or.inl h))
      · rcases ih k h with h' | h'
        · exact Or.inl h'
        · exact Or.inr (by rw [List.map_cons]; exact List.mem_cons.mpr (Or.inr h'))

theorem insertEntry_keys_sorted (d : Nat) (p : FsPath) :
    ∀ (t : List (Nat × List FsPath)),
      List.Pairwise (· < ·) (t.map Prod.fst) →
      List.Pairwise (· < ·) ((insertEntry d p t).map Prod.fst) := by
  intro t
  induction t with
  | nil => intro _; simp [insertEntry]
  | cons b rest ih =>
    obtain ⟨k0, ps⟩ := b
    intro h
    rw [List.map_cons, List.pairwise_cons] at h
    obtain ⟨hall, hrest⟩ := h
    rcases Nat.lt_trichotomy d k0 with h1 | h1 | h1
    · rw [insertEntry_lt d k0 p ps rest h1, List.map_cons, List.pairwise_cons]
      refine ⟨?_, ?_⟩
      · intro x hx
        rw [List.map_cons] at hx
        rcases List.mem_cons.mp hx with h | h
        · exact lt_of_lt_of_eq h1 h.symm
        · exact lt_trans h1 (hall x h)
      · rw [List.map_cons, List.pairwise_cons]
        exact ⟨hall, hrest⟩
    · subst h1
      rw [insertEntry_same d p ps rest, List.map_cons, List.pairwise_cons]
      exact ⟨hall, hrest⟩
    · rw [insertEntry_gt d k0 p ps rest h1, List.map_cons, List.pairwise_cons]
      refine ⟨?_, ih hrest⟩
      intro x hx
      rcases insertEntry_keys_mem d p rest x hx with h' | h'
      · exact lt_of_lt_of_eq h1 h'.symm
      · exact hall x h'

theorem bucketize_keys_sorted (es : List Entry) :
    List.Pairwise (· < ·) ((bucketize es).map Prod.fst) := by
  unfold bucketize
  suffices h : ∀ t, List.Pairwise (· < ·) (t.map Prod.fst) →
      List.Pairwise (· < ·)
        ((es.foldl (fun t e => insertEntry e.depth e.path t) t).map Prod.fst) by
    exact h [] (by simp)
  induction es with
  | nil => intro t ht; simpa using ht
  | cons e rest ih =>
    intro t ht
    exact ih _ (insertEntry_keys_sorted _ _ _ ht)

/-- C6: the bucket-submission loop iterates the depth-keyed map in
reverse, so the sequence of submitted depths is strictly descending —
the deepest bucket is submitted before every shallower one — and
bucketization is a pure function of the scan output, so re-running it
on the same scan output yields the same partition. -/
theorem buckets_descending (es : List Entry) :
    List.Pairwise (fun a b => b < a) (submissionDepths es)
    ∧ ∀ es', es' = es → bucketize es' = bucketize es := by
  refine ⟨?_, fun es' h => by rw [h]⟩
  unfold submissionDepths
  rw [List.map_reverse]
  exact List.pairwise_reverse.mpr (bucketize_keys_sorted es)

/-! ### Repair pass lemmas -/

theorem set_writable_ok_shape (w : World) (q : FsPath) (ev : List Event)
    (h : set_writable w q = Except.ok ev) : ev = [Event.setPerm q] := by
  unfold set_writable at h
  cases hm : w.metadata q with
  | error e => rw [hm] at h; cases h
  | ok u =>
    rw [hm] at h
    cases hs : w.setPermissions q with
    | error e => rw [hs] at h; cases h
    | ok u2 =>
      rw [hs] at h
      injection h with h1
      exact h1.symm

theorem set_writable_error_panic (w : World) (q : FsPath) (h : Halt)
    (he : set_writable w q = Except.error h) : ∃ msg, h = Halt.panic msg := by
  unfold set_writable at he
  cases hm : w.metadata q with
  | error e =>
    rw [hm] at he
    injection he with h1
    exact ⟨e, h1.symm⟩
  | ok u =>
    rw [hm] at he
    cases hs : w.setPermissions q with
    | error e =>
      rw [hs] at he
      injection he with h1
      exact ⟨e, h1.symm⟩
    | ok u2 => rw [hs] at he; cases he

theorem unwrapAll_filter (w : World) (l : List (Except IOErr Entry)) :
    unwrapAll (l.filter fun v =>
      match v with
      | .ok e => w.entryExists e.path
      | .error _ => false)
    = Except.ok (l.filterMap fun v =>
      match v with
      | .ok e => if w.entryExists e.path then some e else none
      | .error _ => none) := by
  induction l with
  | nil => rfl
  | cons v rest ih =>
    cases v with
    | error e =>
      simpa [List.filter_cons, List.filterMap_cons] using ih
    | ok e =>
      by_cases he : w.entryExists e.path
      · simp [List.filter_cons, List.filterMap_cons, he, unwrapAll, ih, Except.map]
      · simpa [List.filter_cons, List.filterMap_cons, he] using ih

theorem unwrapAll_kept (w : World) (p : FsPath) :
    unwrapAll (keptRepairEntries w p) = Except.ok (keptOk w p) := by
  unfold keptRepairEntries keptOk
  exact unwrapAll_filter w (w.walkRepair p)

theorem setAllWritable_no_exit (w : World) (es : List Entry) (n : Nat) :
    setAllWritable w es ≠ Except.error (Halt.exitCode n) := by
  induction es with
  | nil => intro h; cases h
  | cons e rest ih =>
    intro h
    unfold setAllWritable at h
    cases hw : set_writable w e.path with
    | error halt =>
      rw [hw] at h
      have h1 : halt = Halt.exitCode n := by
        simpa [Bind.bind, Except.bind] using h
      obtain ⟨msg, hmsg⟩ := set_writable_error_panic w e.path halt hw
      rw [hmsg] at h1
      cases h1
    | ok ev =>
      rw [hw] at h
      cases hr : setAllWritable w rest with
      | error halt2 =>
        rw [hr] at h
        have h1 : halt2 = Halt.exitCode n := by
          simpa [Bind.bind, Except.bind] using h
        exact ih (by rw [hr, h1])
      | ok evs => rw [hr] at h; simp [Bind.bind, Except.bind] at h

theorem setAllWritable_no_remove (w : World) (es : List Entry) :
    ∀ evs : List Event, setAllWritable w es = Except.ok evs →
      ∀ q, Event.removeAttempt q ∉ evs := by
  induction es with
  | nil =>
    intro evs h q
    injection h with h1
    rw [← h1]
    simp
  | cons e rest ih =>
    intro evs h q
    unfold setAllWritable at h
    cases hw : set_writable w e.path with
    | error halt => rw [hw] at h; simp [Bind.bind, Except.bind] at h
    | ok ev =>
      rw [hw] at h
      cases hr : setAllWritable w rest with
      | error halt2 => rw [hr] at h; simp [Bind.bind, Except.bind] at h
      | ok evs2 =>
        rw [hr] at h
        have h1 : ev ++ evs2 = evs := by
          simpa [Bind.bind, Except.bind] using h
        rw [← h1]
        intro hmem
        rcases List.mem_append.mp hmem with hm | hm
        · rw [set_writable_ok_shape w e.path ev hw] at hm
          simp at hm
        · exact ih evs2 hr q hm

theorem set_folder_writable_eq (w : World) (p : FsPath) :
    set_folder_writable w p
      = (setAllWritable w (keptOk w p)).map fun evs => Event.repairStart p :: evs := by
  unfold set_folder_writable
  rw [unwrapAll_kept w p]
  cases hr : setAllWritable w (keptOk w p) <;>
    simp [hr, Bind.bind, Except.bind, Except.map]

/-- C1: after the join barrier the engine checks whether the root still
exists.  If it does, the permission repairer is invoked on the root
(the `repairStart` event is in the log, and the repair pass performs no
removal) and then exactly one final recursive removal of the root is
attempted, whose error — if any — is the reported `PartialFailure` and
whose success yields `Success`.  If the root no longer exists, the
result is `Success` directly, with an empty post-barrier log: the
repairer is not invoked. -/
theorem root_retry (w : World) (p : FsPath) :
    (w.pathExistsAfter p = true →
      ∀ revs, set_folder_writable w p = Except.ok revs →
        dirFinish w p = Except.ok
          ((match delete_entry w p with
            | Except.error e => Outcome.PartialFailure e
            | Except.ok _ => Outcome.Success),
           revs ++ [Event.removeAttempt p])
        ∧ Event.repairStart p ∈ revs
        ∧ ∀ q, Event.removeAttempt q ∉ revs)
    ∧ (w.pathExistsAfter p = false →
        dirFinish w p = Except.ok (Outcome.Success, [])) := by
  constructor
  · intro hafter revs hrep
    have hshape : ∃ evs, setAllWritable w (keptOk w p) = Except.ok evs
        ∧ revs = Event.repairStart p :: evs := by
      rw [set_folder_writable_eq] at hrep
      cases hr : setAllWritable w (keptOk w p) with
      | error halt => rw [hr] at hrep; simp [Except.map] at hrep
      | ok evs =>
        rw [hr] at hrep
        simp only [Except.map] at hrep
        injection hrep with h1
        exact ⟨evs, rfl, h1.symm⟩
    obtain ⟨evs, hall, hrevs⟩ := hshape
    refine ⟨?_, ?_, ?_⟩
    · unfold dirFinish
      rw [hafter]
      simp only [if_true]
      rw [hrep]
      cases hd : delete_entry w p with
      | error e => simp [Bind.bind, Except.bind]
      | ok u => simp [Bind.bind, Except.bind]
    · rw [hrevs]; exact List.mem_cons_self _ _
    · intro q
      rw [hrevs]
      intro hmem
      rcases List.mem_cons.mp hmem with h | h
      · cases h
      · exact setAllWritable_no_remove w (keptOk w p) evs hall q h
  · intro hafter
    unfold dirFinish
    rw [hafter]
    simp

/-- Witness for C1: in `W3` the root survives the fan-out, the repair
pass succeeds, and the final removal succeeds; in `W0` the root is gone
after the barrier and the post-barrier phase is a direct success. -/
theorem root_retry_witness :
    (dirFinish W3 "d" = Except.ok (Outcome.Success,
        [Event.repairStart "d", Event.setPerm "d/a", Event.removeAttempt "d"])
      ∧ Event.repairStart "d" ∈ [Event.repairStart "d", Event.setPerm "d/a"]
      ∧ ∀ q, Event.removeAttempt q ∉ [Event.repairStart "d", Event.setPerm "d/a"])
    ∧ dirFinish W0 "d" = Except.ok (Outcome.Success, []) :=
  ⟨(root_retry W3 "d").1 rfl [Event.repairStart "d", Event.setPerm "d/a"] rfl,
   (root_retry W0 "d").2 rfl⟩

/-- C3 counterexample: in `W3` the repair walk yields an `Err` item,
yet `set_folder_writable` silently continues — it filters the error
away and returns successfully, clearing only the readable entry.  The
claimed behavior (the walk failure is fatal for the repair attempt and
does not silently continue) does not hold. -/
theorem repair_silent_counterexample :
    (Except.error "unreadable subdirectory" : Except IOErr Entry) ∈ W3.walkRepair "d"
    ∧ set_folder_writable W3 "d"
        = Except.ok [Event.repairStart "d", Event.setPerm "d/a"] := by
  exact ⟨List.mem_cons_self _ _, rfl⟩

/-- C3 (amended): entries the repair walk fails to read are silently
filtered out before the unwrap, so the abort branch
(`std::process::exit(1)`) is unreachable for every walk output: the
unwrap stage always receives only `Ok` items and returns exactly the
readable, still-existing entries, and `set_folder_writable` never
terminates with exit code 1 — attribute clearing, and therefore the
subsequent final removal retry, proceed over the remaining entries. -/
theorem repair_walk_errors_skipped (w : World) (p : FsPath) :
    unwrapAll (keptRepairEntries w p) = Except.ok (keptOk w p)
    ∧ ∀ n, set_folder_writable w p ≠ Except.error (Halt.exitCode n) := by
  refine ⟨unwrapAll_kept w p, ?_⟩
  intro n h
  rw [set_folder_writable_eq] at h
  cases hr : setAllWritable w (keptOk w p) with
  | error halt =>
    rw [hr] at h
    simp only [Except.map] at h
    injection h with h1
    exact setAllWritable_no_exit w (keptOk w p) n (by rw [hr, h1])
  | ok evs =>
    rw [hr] at h
    simp [Except.map] at h

/-- C4: on an existing regular file (readable metadata, writable
permissions), `processPath` clears the read-only attribute, then
attempts exactly one direct removal, returning `Success` on success
and `PartialFailure` of the I/O error otherwise; the event log is
exactly the attribute clear followed by the removal — no scan pass and
no progress tick occurs, so no traversal or depth bucketing happens. -/
theorem single_file_delete (w : World) (p : FsPath)
    (hex : w.pathExists p = true) (hf : w.isFile p = true) (hd : w.isDir p = false)
    (hm : w.metadata p = Except.ok ()) (hsp : w.setPermissions p = Except.ok ()) :
    processPath w p = Except.ok
      ((match w.removeFile p with
        | Except.error e => Outcome.PartialFailure e
        | Except.ok _ => Outcome.Success),
       [Event.setPerm p, Event.removeAttempt p])
    ∧ (∀ q, Event.scan q ∉ [Event.setPerm p, Event.removeAttempt p])
    ∧ countTicks [Event.setPerm p, Event.removeAttempt p] = 0 := by
  refine ⟨?_, ?_, rfl⟩
  · unfold processPath
    rw [hex, hf]
    simp only [Bool.not_true, Bool.false_eq_true, if_false, if_true]
    unfold fileBranch set_writable delete_entry
    rw [hm, hsp, hd]
    simp only [Bool.false_eq_true, if_false]
    cases hr : w.removeFile p with
    | error e => simp [Bind.bind, Except.bind]
    | ok u => simp [Bind.bind, Except.bind]
  · intro q
    simp

/-- Witness for C4 at a concrete file world. -/
theorem single_file_delete_witness :
    processPath Wf "f.txt" = Except.ok (Outcome.Success,
      [Event.setPerm "f.txt", Event.removeAttempt "f.txt"])
    ∧ (∀ q, Event.scan q ∉ [Event.setPerm "f.txt", Event.removeAttempt "f.txt"])
    ∧ countTicks [Event.setPerm "f.txt", Event.removeAttempt "f.txt"] = 0 :=
  single_file_delete Wf "f.txt" rfl rfl rfl rfl rfl

/-- C7: on a path that does not exist, `processPath` returns `NotFound`
with an empty event log: no deletion attempt, no filesystem mutation,
and zero progress ticks. -/
theorem notfound_noop (w : World) (p : FsPath) (h : w.pathExists p = false) :
    processPath w p = Except.ok (Outcome.NotFound, []) := by
  unfold processPath
  rw [h]
  simp

/-- Witness for C7 at a concrete world with no paths. -/
theorem notfound_noop_witness :
    processPath Wmissing "ghost" = Except.ok (Outcome.NotFound, []) :=
  notfound_noop Wmissing "ghost" rfl

/-! ### Progress counting lemmas -/

theorem countTicks_cons (e : Event) (evs : List Event) :
    countTicks (e :: evs)
      = countTicks evs + (match e with | Event.tick => 1 | _ => 0) := by
  cases e <;> rfl

theorem countTicks_append (l1 l2 : List Event) :
    countTicks (l1 ++ l2) = countTicks l1 + countTicks l2 := by
  unfold countTicks
  rw [List.filter_append, List.length_append]

theorem countTicks_bucketEvents (ps : List FsPath) :
    countTicks (bucketEvents ps) = ps.length := by
  induction ps with
  | nil => rfl
  | cons p rest ih =>
    show countTicks (Event.removeAttempt p :: Event.tick :: bucketEvents rest)
      = rest.length + 1
    rw [countTicks_cons, countTicks_cons, ih]
    rfl

theorem flattenPlan_append (t1 t2 : List (Nat × List FsPath)) :
    flattenPlan (t1 ++ t2) = flattenPlan t1 ++ flattenPlan t2 := by
  induction t1 with
  | nil => rfl
  | cons b rest ih =>
    show (b.2.map fun p => (b.1, p)) ++ flattenPlan (rest ++ t2)
      = ((b.2.map fun p => (b.1, p)) ++ flattenPlan rest) ++ flattenPlan t2
    rw [ih, List.append_assoc]

theorem countTicks_fanoutEvents (t : List (Nat × List FsPath)) :
    countTicks (fanoutEvents t) = (flattenPlan t).length := by
  induction t with
  | nil => rfl
  | cons b rest ih =>
    show countTicks (bucketEvents b.2 ++ fanoutEvents rest)
      = ((b.2.map fun p => (b.1, p)) ++ flattenPlan rest).length
    rw [countTicks_append, countTicks_bucketEvents, ih,
      List.length_append, List.length_map]

theorem flattenPlan_reverse_length (t : List (Nat × List FsPath)) :
    (flattenPlan t.reverse).length = (flattenPlan t).length := by
  induction t with
  | nil => rfl
  | cons b rest ih =>
    rw [List.reverse_cons, flattenPlan_append, List.length_append, ih]
    show _ = ((b.2.map fun p => (b.1, p)) ++ flattenPlan rest).length
    rw [List.length_append]
    have h1 : (flattenPlan [b]).length = (b.2.map fun p => (b.1, p)).length := by
      show ((b.2.map fun p => (b.1, p)) ++ []).length = _
      rw [List.append_nil]
    rw [h1]
    omega

theorem flattenPlan_bucketize_length (es : List Entry) :
    (flattenPlan (bucketize es)).length = es.length := by
  have h := (flattenPlan_foldl es []).length_eq
  unfold bucketize
  simpa [flattenPlan] using h

theorem fanout_ticks_eq_scan (es : List Entry) :
    countTicks (fanoutEvents ((bucketize es).reverse)) = es.length := by
  rw [countTicks_fanoutEvents, flattenPlan_reverse_length,
    flattenPlan_bucketize_length]

theorem countTicks_take_le (evs : List Event) (k : Nat) :
    countTicks (evs.take k) ≤ countTicks evs := by
  conv_rhs => rw [← List.take_append_drop k evs]
  rw [countTicks_append]
  omega

theorem countTicks_take_mono (evs : List Event) (n m : Nat) (h : n ≤ m) :
    countTicks (evs.take n) ≤ countTicks (evs.take m) := by
  have h1 : evs.take n = (evs.take m).take n := by
    rw [List.take_take, Nat.min_eq_left h]
  rw [h1]
  exact countTicks_take_le _ n

/-- C8: for a directory target, the fan-out emits exactly one tick per
bucketized entry, so the progress count after the fan-out equals the
number of entries discovered by the scan; tick counts over prefixes of
the fan-out log never decrease; and the outcome of `processPath` is
exactly the outcome of the post-barrier phase `dirFinish` — the counter
(and the swallowed per-entry removal results) have no effect on control
flow. -/
theorem progress_counter (w : World) (p : FsPath) (es : List Entry)
    (hex : w.pathExists p = true) (hnf : w.isFile p = false)
    (hscan : scanEntries (w.walk p) = some es) :
    countTicks (fanoutEvents ((bucketize es).reverse)) = es.length
    ∧ (∀ n m, n ≤ m →
        countTicks ((fanoutEvents ((bucketize es).reverse)).take n)
          ≤ countTicks ((fanoutEvents ((bucketize es).reverse)).take m))
    ∧ (processPath w p).map (fun r => r.1) = (dirFinish w p).map (fun r => r.1) := by
  refine ⟨fanout_ticks_eq_scan es, fun n m h => countTicks_take_mono _ n m h, ?_⟩
  unfold processPath
  rw [hex, hnf, hscan]
  simp only [Bool.not_true, Bool.false_eq_true, if_false]
  unfold dirBranch
  cases hf : dirFinish w p with
  | error halt => simp [hf, Bind.bind, Except.bind, Except.map]
  | ok fin => simp [hf, Bind.bind, Except.bind, Except.map]

/-- Witness for C8 at the concrete directory world `W0`. -/
theorem progress_counter_witness :
    countTicks (fanoutEvents ((bucketize dEntries).reverse)) = dEntries.length
    ∧ (∀ n m, n ≤ m →
        countTicks ((fanoutEvents ((bucketize dEntries).reverse)).take n)
          ≤ countTicks ((fanoutEvents ((bucketize dEntries).reverse)).take m))
    ∧ (processPath W0 "d").map (fun r => r.1)
        = (dirFinish W0 "d").map (fun r => r.1) :=
  progress_counter W0 "d" dEntries rfl rfl rfl

theorem setAllWritable_error_of_mem (w : World) :
    ∀ es : List Entry, ∀ en ∈ es,
      (∃ h, set_writable w en.path = Except.error h) →
      ∃ msg, setAllWritable w es = Except.error (Halt.panic msg) := by
  intro es
  induction es with
  | nil => intro en hmem; simp at hmem
  | cons e rest ih =>
    intro en hmem hw
    obtain ⟨h, hw⟩ := hw
    cases hwe : set_writable w e.path with
    | error halt =>
      obtain ⟨msg, hmsg⟩ := set_writable_error_panic w e.path halt hwe
      refine ⟨msg, ?_⟩
      unfold setAllWritable
      rw [hwe, hmsg]
      simp [Bind.bind, Except.bind]
    | ok ev =>
      rcases List.mem_cons.mp hmem with rfl | hmem'
      · rw [hw] at hwe; cases hwe
      · obtain ⟨msg, hrest⟩ := ih en hmem' ⟨h, hw⟩
        refine ⟨msg, ?_⟩
        unfold setAllWritable
        rw [hwe, hrest]
        simp [Bind.bind, Except.bind]

/-- C9: for every world and path, a failing metadata read makes
`set_writable` panic with that error, and a successful metadata read
followed by a failing permissions write-back makes it panic with that
error — the two `.unwrap()` calls — instead of returning or
propagating an error value; consequently, whenever `set_writable`
halts, the single-file deletion path terminates abnormally with the
same halt rather than yielding a `PartialFailure` outcome, and
whenever the repair pass reaches an entry whose `set_writable` fails,
the whole directory run terminates abnormally with a panic. -/
theorem set_writable_panics (w : World) (p : FsPath) :
    (∀ e, w.metadata p = Except.error e →
        set_writable w p = Except.error (Halt.panic e))
    ∧ (∀ e u, w.metadata p = Except.ok u →
        w.setPermissions p = Except.error e →
        set_writable w p = Except.error (Halt.panic e))
    ∧ (∀ h, w.pathExists p = true → w.isFile p = true →
        set_writable w p = Except.error h →
        processPath w p = Except.error h)
    ∧ (w.pathExists p = true → w.isFile p = false →
        w.pathExistsAfter p = true →
        (∃ en ∈ keptOk w p, ∃ h, set_writable w en.path = Except.error h) →
        ∃ msg, processPath w p = Except.error (Halt.panic msg)) := by
  refine ⟨?_, ?_, ?_, ?_⟩
  · intro e he
    unfold set_writable
    rw [he]
  · intro e u hm hs
    unfold set_writable
    rw [hm, hs]
  · intro h hex hf hw
    unfold processPath
    rw [hex, hf]
    simp only [Bool.not_true, Bool.false_eq_true, if_false, if_true]
    unfold fileBranch
    rw [hw]
    simp [Bind.bind, Except.bind]
  · intro hex hnf hafter hen
    obtain ⟨en, hmem, hw⟩ := hen
    obtain ⟨msg, hall⟩ := setAllWritable_error_of_mem w (keptOk w p) en hmem hw
    refine ⟨msg, ?_⟩
    have hrep : set_folder_writable w p = Except.error (Halt.panic msg) := by
      rw [set_folder_writable_eq, hall]
      rfl
    have hfin : dirFinish w p = Except.error (Halt.panic msg) := by
      unfold dirFinish
      rw [hafter]
      simp only [if_true]
      rw [hrep]
      simp [Bind.bind, Except.bind]
    unfold processPath
    rw [hex, hnf]
    simp only [Bool.not_true, Bool.false_eq_true, if_false]
    obtain ⟨es, hscan⟩ := Option.isSome_iff_exists.mp (scanEntries_isSome (w.walk p))
    rw [hscan]
    unfold dirBranch
    rw [hfin]
    simp [Bind.bind, Except.bind]

/-- Witness for C9: the metadata-read failure mode at `Wpanic`, the
permissions-write-back failure mode at `WpanicPerms` (both also shown
aborting the single-file branch), and the repair pass aborting the
directory run at `WpanicDir`. -/
theorem set_writable_panics_witness :
    set_writable Wpanic "f" = Except.error (Halt.panic "EACCES")
    ∧ set_writable WpanicPerms "f" = Except.error (Halt.panic "read-only filesystem")
    ∧ processPath Wpanic "f" = Except.error (Halt.panic "EACCES")
    ∧ processPath WpanicPerms "f" = Except.error (Halt.panic "read-only filesystem")
    ∧ ∃ msg, processPath WpanicDir "d" = Except.error (Halt.panic msg) :=
  ⟨(set_writable_panics Wpanic "f").1 "EACCES" rfl,
   (set_writable_panics WpanicPerms "f").2.1 "read-only filesystem" () rfl rfl,
   (set_writable_panics Wpanic "f").2.2.1 (Halt.panic "EACCES") rfl rfl rfl,
   (set_writable_panics WpanicPerms "f").2.2.1
     (Halt.panic "read-only filesystem") rfl rfl rfl,
   (set_writable_panics WpanicDir "d").2.2.2 rfl rfl rfl
     ⟨⟨"d/a", 1⟩, List.mem_cons_self _ _, Halt.panic "EACCES", rfl⟩⟩

/-- C10 counterexample: the single-character argument `"` starts and
ends with a double quote, but the program does not strip it and process
the rest: the byte slice `[1..0]` is out of range and the run panics,
so the claim's universally quantified stripping behavior fails at this
input. -/
theorem quote_strip_counterexample :
    startsWithQuote "\"" = true ∧ endsWithQuote "\"" = true
    ∧ stripQuotes "\""
        = Except.error (Halt.panic "slice index starts at 1 but ends at 0") :=
  ⟨rfl, rfl, rfl⟩

/-- C10 (amended): for every argument of length at least 2 that starts
and ends with a double quote, the program strips the first and last
character before resolving the path; the processed path is two
characters shorter and therefore differs from the argument as given
(so an entry whose literal name begins and ends with double quotes
cannot be addressed verbatim).  The remaining case — the one-character
argument `"` — panics instead. -/
theorem quote_strip_amended (s : String) (h2 : 2 ≤ s.length)
    (hs : startsWithQuote s = true) (he : endsWithQuote s = true) :
    stripQuotes s = Except.ok (String.mk ((s.toList.drop 1).dropLast))
    ∧ (String.mk ((s.toList.drop 1).dropLast)).length = s.length - 2
    ∧ String.mk ((s.toList.drop 1).dropLast) ≠ s := by
  have hlist : s.toList.length = s.length := rfl
  have hlen : ((s.toList.drop 1).dropLast).length = s.length - 2 := by
    rw [List.length_dropLast, List.length_drop]
    omega
  refine ⟨?_, hlen, ?_⟩
  · unfold stripQuotes
    rw [hs, he]
    simp only [Bool.and_self, if_true]
    rw [if_neg (by omega)]
  · intro heq
    have hl : (String.mk ((s.toList.drop 1).dropLast)).length = s.length := by
      rw [heq]
    have hl2 : (String.mk ((s.toList.drop 1).dropLast)).length
        = ((s.toList.drop 1).dropLast).length := rfl
    rw [hl2, hlen] at hl
    omega

/-- Witness for the amended C10 at the concrete argument `"ab"` written
with surrounding quotes. -/
theorem quote_strip_amended_witness :
    stripQuotes "\"ab\"" = Except.ok (String.mk (("\"ab\"".toList.drop 1).dropLast))
    ∧ (String.mk (("\"ab\"".toList.drop 1).dropLast)).length = "\"ab\"".length - 2
    ∧ String.mk (("\"ab\"".toList.drop 1).dropLast) ≠ "\"ab\"" :=
  quote_strip_amended "\"ab\"" (by decide) rfl rfl

/-- Witness for C6 at the concrete entry list `dEntries`. -/
theorem buckets_descending_witness :
    List.Pairwise (fun a b => b < a) (submissionDepths dEntries)
    ∧ bucketize dEntries = bucketize dEntries :=
  ⟨(buckets_descending dEntries).1, (buckets_descending dEntries).2 dEntries rfl⟩
